import Mathlib

/-!
Verification development for the blob-tracker repository.

The definitions below are a shallow embedding of the tracking core in
src/services/cvProcessor.ts (candidate extraction, greedy nearest-neighbour
identity matching, history bookkeeping, prune pass) and of the two pieces of
src/components/BlobTracker.tsx the claims mention (the visual motion smoother
inside drawOverlays, and the export render loop inside runRender).

Modelling conventions:
* JavaScript numbers that participate only in finite arithmetic are ℚ;
  timestamps (Date.now values) are ℤ.
* A coordinate is `Option ℚ`: `some q` is a finite value, `none` stands for a
  non-finite value (NaN or an infinity).  Every coordinate expression the
  tracker evaluates propagates non-finiteness, and a non-finite distance
  compares false under `<` against the finite running minimum, which is the
  IEEE behaviour of the source expressions.
* `Math.hypot dx dy` is nonnegative and strictly monotone in `dx^2 + dy^2`,
  and the source only ever compares hypot values with each other and with the
  finite nonnegative radius, so the embedding compares squared distances and
  stays inside ℚ.
* The JS `Map` iterates in insertion order; it is embedded as an
  insertion-ordered association list.
-/

namespace BlobTracker

/-- Numeric settings consumed by the tracker (src/types.ts, TrackerSettings);
only the fields the modelled code reads are included. -/
structure TrackerSettings where
  threshold : ℚ
  minArea : ℚ
  blurSize : ℤ
  historyLength : ℕ
  jitter : ℚ
  drift : ℚ

/-- A JavaScript number used as a coordinate: `some q` is finite, `none` is
NaN or an infinity. -/
abbrev Coord := Option ℚ

/-- History entry (src/types.ts, Point). -/
structure Point where
  x : Coord
  y : Coord

/-- Tracked blob (src/types.ts, DetectedBlob).  The tracker always sets
visualX/visualY at creation, so they are plain coordinates here. -/
structure DetectedBlob where
  id : ℕ
  x : Coord
  y : Coord
  w : ℚ
  h : ℚ
  area : ℚ
  history : List Point
  lastSeen : ℤ
  visualX : Coord
  visualY : Coord

/-- Per-frame candidate region, after coordinate scaling (the object pushed
onto currentFrameBlobs in cvProcessor.ts lines 147-153). -/
structure Candidate where
  x : Coord
  y : Coord
  w : ℚ
  h : ℚ
  area : ℚ

/-- Raw contour data in processing space: contourArea plus boundingRect
(cvProcessor.ts lines 130-144). -/
structure RawRegion where
  area : ℚ
  rx : ℚ
  ry : ℚ
  rw : ℚ
  rh : ℚ

/-- Persistent tracker state (cvProcessor.ts lines 17-18): the id counter and
the insertion-ordered active-blob map. -/
structure TrackerState where
  nextBlobId : ℕ
  activeBlobs : List (ℕ × DetectedBlob)

/-- Constant MAX_TRACKING_DISTANCE_BASE (cvProcessor.ts line 3). -/
def MAX_TRACKING_DISTANCE_BASE : ℚ := 100

/-- Constant BLOB_TIMEOUT in milliseconds (cvProcessor.ts line 4). -/
def BLOB_TIMEOUT : ℤ := 500

/-- Key list of the active-blob map. -/
def keysOf (m : List (ℕ × DetectedBlob)) : List ℕ := m.map Prod.fst

/-- JS Map.get on the insertion-ordered association list. -/
def mapGet (m : List (ℕ × DetectedBlob)) (k : ℕ) : Option DetectedBlob :=
  (m.find? (fun p => decide (p.1 = k))).map Prod.snd

/-- JS Map.set: overwrite in place when the key exists, append otherwise. -/
def mapSet (m : List (ℕ × DetectedBlob)) (k : ℕ) (v : DetectedBlob) :
    List (ℕ × DetectedBlob) :=
  if k ∈ keysOf m then m.map (fun p => if p.1 = k then (k, v) else p)
  else m ++ [(k, v)]

/-- Squared Euclidean distance between a candidate position and a blob
position, `none` when any coordinate is non-finite (see the module comment for
why squaring is faithful to the hypot comparisons of the source). -/
def distSq : Coord → Coord → Coord → Coord → Option ℚ
  | some ax, some ay, some bx, some bY => some ((ax - bx) ^ 2 + (ay - bY) ^ 2)
  | _, _, _, _ => none

/-- Matching radius MAX_TRACKING_DISTANCE_BASE * Math.max(1, scaleFactor)
(cvProcessor.ts line 163). -/
def maxDistOf (scaleFactor : ℚ) : ℚ := MAX_TRACKING_DISTANCE_BASE * max 1 scaleFactor

/-- One step of the activeBlobs.forEach scan inside the matching pass
(cvProcessor.ts lines 166-177): skip already assigned ids, skip non-finite
distances, otherwise keep the entry when its distance beats the running
minimum. -/
def closestScan (c : Candidate) (assigned : List ℕ)
    (acc : Option (ℕ × DetectedBlob) × ℚ) (kv : ℕ × DetectedBlob) :
    Option (ℕ × DetectedBlob) × ℚ :=
  if kv.1 ∈ assigned then acc
  else
    match distSq c.x c.y kv.2.x kv.2.y with
    | some d => if d < acc.2 then (some kv, d) else acc
    | none => acc

/-- Inner scan of the matching pass (cvProcessor.ts lines 166-177): find the
unassigned active blob closest to the candidate, starting from minDist =
maxDist.  The source keeps the winning id and re-reads the unchanged map
afterwards; the embedding carries the winning entry itself, together with the
running squared minimum distance. -/
def findClosest (c : Candidate) (assigned : List ℕ) (maxDistSq : ℚ)
    (blobs : List (ℕ × DetectedBlob)) : Option (ℕ × DetectedBlob) × ℚ :=
  blobs.foldl (closestScan c assigned) (none, maxDistSq)

/-- Mutable closure state of the forEach over currentFrameBlobs: the result
list, the active map, the assigned-id set and the id counter. -/
structure TrackAcc where
  tracked : List DetectedBlob
  active : List (ℕ × DetectedBlob)
  assigned : List ℕ
  nextId : ℕ

/-- Updated blob written on a successful match (cvProcessor.ts lines 179-198):
the pre-update position is appended to the history, one element is shifted off
the front when the bound is exceeded, the detection fields and lastSeen are
overwritten, and id and visualX/visualY are preserved. -/
def updatedBlobOf (s : TrackerSettings) (existing : DetectedBlob)
    (c : Candidate) (now : ℤ) : DetectedBlob :=
  let h1 := existing.history ++ [⟨existing.x, existing.y⟩]
  let history := if s.historyLength < h1.length then h1.drop 1 else h1
  { existing with
    x := c.x, y := c.y, w := c.w, h := c.h, area := c.area,
    lastSeen := now, history := history }

/-- Fresh blob created when no match is found (cvProcessor.ts lines 199-212):
empty history and visual position initialized to the detection position. -/
def newBlobOf (newId : ℕ) (c : Candidate) (now : ℤ) : DetectedBlob :=
  { id := newId, x := c.x, y := c.y, w := c.w, h := c.h,
    area := c.area, history := [], lastSeen := now,
    visualX := c.x, visualY := c.y }

/-- Body of currentFrameBlobs.forEach (cvProcessor.ts lines 165-216).  The
source does not add freshly created ids to assignedIds. -/
def stepCandidate (s : TrackerSettings) (maxDistSq : ℚ) (now : ℤ)
    (acc : TrackAcc) (c : Candidate) : TrackAcc :=
  match (findClosest c acc.assigned maxDistSq acc.active).1 with
  | some (i, existing) =>
      { acc with
        active := mapSet acc.active i (updatedBlobOf s existing c now),
        assigned := acc.assigned ++ [i],
        tracked := acc.tracked ++ [updatedBlobOf s existing c now] }
  | none =>
      { acc with
        nextId := acc.nextId + 1,
        active := mapSet acc.active acc.nextId (newBlobOf acc.nextId c now),
        tracked := acc.tracked ++ [newBlobOf acc.nextId c now] }

/-- Matching pass over the frame's candidate list, in input order
(cvProcessor.ts lines 158-216). -/
def matchPhase (s : TrackerSettings) (scaleFactor : ℚ) (now : ℤ)
    (cands : List Candidate) (st : TrackerState) : TrackAcc :=
  cands.foldl (stepCandidate s ((maxDistOf scaleFactor) ^ 2) now)
    { tracked := [], active := st.activeBlobs, assigned := [], nextId := st.nextBlobId }

/-- Prune pass (cvProcessor.ts lines 219-223): delete every entry whose
now - lastSeen exceeds BLOB_TIMEOUT. -/
def prune (now : ℤ) (m : List (ℕ × DetectedBlob)) : List (ℕ × DetectedBlob) :=
  m.filter (fun kv => !decide (BLOB_TIMEOUT < now - kv.2.lastSeen))

/-- Tracking section of processFrame, the spec's match(candidates, now):
matching pass in input order, then the prune pass, returning the frame's
tracked list and the new tracker state. -/
def processCandidates (s : TrackerSettings) (scaleFactor : ℚ) (now : ℤ)
    (cands : List Candidate) (st : TrackerState) :
    List DetectedBlob × TrackerState :=
  let a := matchPhase s scaleFactor now cands st
  (a.tracked, { nextBlobId := a.nextId, activeBlobs := prune now a.active })

/-- Candidate built from one admitted contour (cvProcessor.ts lines 145-153):
centre of the bounding rect and its size scaled back to video space, and the
scale-squared-adjusted area. -/
def mkCandidate (scaleFactor : ℚ) (r : RawRegion) : Candidate :=
  { x := some ((r.rx + r.rw / 2) * scaleFactor)
  , y := some ((r.ry + r.rh / 2) * scaleFactor)
  , w := r.rw * scaleFactor
  , h := r.rh * scaleFactor
  , area := r.area * (scaleFactor * scaleFactor) }

/-- Extraction filter (cvProcessor.ts lines 130-154): a region is admitted
exactly when its area times scaleFactor squared exceeds settings.minArea. -/
def toCandidates (scaleFactor : ℚ) (minArea : ℚ) (regions : List RawRegion) :
    List Candidate :=
  regions.filterMap (fun r =>
    if minArea < r.area * (scaleFactor * scaleFactor) then
      some (mkCandidate scaleFactor r)
    else none)

/-- Sections 3 and 4 of processFrame (cvProcessor.ts lines 126-225): extract
and scale candidates, then track and prune. -/
def processFrame (s : TrackerSettings) (scaleFactor : ℚ) (now : ℤ)
    (regions : List RawRegion) (st : TrackerState) :
    List DetectedBlob × TrackerState :=
  processCandidates s scaleFactor now (toCandidates scaleFactor s.minArea regions) st

/-- Lerp factor of the visual motion smoother (BlobTracker.tsx line 122):
0.8 - drift * 0.7. -/
def lerpFactor (drift : ℚ) : ℚ := 8 / 10 - drift * (7 / 10)

/-- One-axis update of the stored display position (BlobTracker.tsx lines
123-124): visual := visual + (target - visual) * lerpFactor. -/
def visualStep (visual target drift : ℚ) : ℚ :=
  visual + (target - visual) * lerpFactor drift

/-- Frame duration of the export loop: 1 / targetFps with targetFps = 30
(BlobTracker.tsx lines 287-288). -/
def frameDuration : ℚ := 1 / 30

/-- Math.round on the nonnegative values the export loop produces: round half
up. -/
def roundJS (x : ℚ) : ℤ := ⌊x + 1 / 2⌋

/-- Progress value reported for elapsed time t (BlobTracker.tsx line 326):
Math.min(100, Math.round((currentTime / duration) * 100)). -/
def reportProgress (duration t : ℚ) : ℤ := min 100 (roundJS (t / duration * 100))

/-- Observable outcome of one runRender invocation: the reported progress
values in order, the number of frames processed, whether onRenderComplete was
invoked, and the final decoder position. -/
structure RenderResult where
  reports : List ℤ
  framesProcessed : ℕ
  completeInvoked : Bool
  finalSeek : ℚ

/-- Export render loop (BlobTracker.tsx lines 290-332): while currentTime <
duration and not cancelled, process one frame, report progress for the current
time, advance currentTime by frameDuration and yield; cancellation is observed
at the head of the next iteration.  The fuel argument only bounds the
recursion; runRender supplies enough of it for the loop to run to its natural
exit. -/
def exportLoop (duration : ℚ) (cancel : ℕ → Bool) :
    ℕ → ℕ → ℚ → List ℤ × ℕ
  | 0, n, _ => ([], n)
  | fuel + 1, n, t =>
      if t < duration ∧ cancel n = false then
        let rest := exportLoop duration cancel fuel (n + 1) (t + frameDuration)
        (reportProgress duration t :: rest.1, rest.2)
      else ([], n)

/-- Fuel that lets the export loop reach its natural exit. -/
def exportFuel (duration : ℚ) : ℕ := (⌈duration / frameDuration⌉).toNat + 1

/-- Tail of runRender (BlobTracker.tsx lines 290-343) given a valid canvas
context: run the loop from frame 0 at time 0, then unconditionally stop the
recorder — whose onstop handler invokes onRenderComplete with the recorded
chunks — and seek the video back to 0. -/
def runRender (duration : ℚ) (cancel : ℕ → Bool) : RenderResult :=
  let r := exportLoop duration cancel (exportFuel duration) 0 0
  { reports := r.1, framesProcessed := r.2, completeInvoked := true, finalSeek := 0 }

/-! Lemmas about the association-list embedding of the JS Map. -/

lemma mem_keysOf {m : List (ℕ × DetectedBlob)} {k : ℕ} :
    k ∈ keysOf m ↔ ∃ b, (k, b) ∈ m := by
  simp only [keysOf, List.mem_map]
  constructor
  · rintro ⟨⟨k2, b⟩, hm, rfl⟩
    exact ⟨b, hm⟩
  · rintro ⟨b, hb⟩
    exact ⟨(k, b), hb, rfl⟩

lemma mapSet_pos {m : List (ℕ × DetectedBlob)} {k : ℕ} {v : DetectedBlob}
    (hk : k ∈ keysOf m) :
    mapSet m k v = m.map (fun p => if p.1 = k then (k, v) else p) := by
  unfold mapSet
  rw [if_pos hk]

lemma mapSet_neg {m : List (ℕ × DetectedBlob)} {k : ℕ} {v : DetectedBlob}
    (hk : k ∉ keysOf m) : mapSet m k v = m ++ [(k, v)] := by
  unfold mapSet
  rw [if_neg hk]

lemma mapGet_eq_some_mem {m : List (ℕ × DetectedBlob)} {k : ℕ} {b : DetectedBlob}
    (h : mapGet m k = some b) : (k, b) ∈ m := by
  simp only [mapGet, Option.map_eq_some'] at h
  obtain ⟨⟨k2, b2⟩, hfind, rfl⟩ := h
  have hp := List.find?_some hfind
  have hmem := List.mem_of_find?_eq_some hfind
  simp only [decide_eq_true_eq] at hp
  simpa [hp] using hmem

lemma mapGet_isSome_of_mem {m : List (ℕ × DetectedBlob)} {k : ℕ} {b : DetectedBlob}
    (h : (k, b) ∈ m) : ∃ b2, mapGet m k = some b2 := by
  have : (m.find? (fun p => decide (p.1 = k))).isSome := by
    rw [List.find?_isSome]
    exact ⟨(k, b), h, by simp⟩
  obtain ⟨p, hp⟩ := Option.isSome_iff_exists.mp this
  exact ⟨p.2, by simp [mapGet, hp]⟩

lemma mapGet_eq_some_of_mem {m : List (ℕ × DetectedBlob)} {k : ℕ} {b : DetectedBlob}
    (hnd : (keysOf m).Nodup) (h : (k, b) ∈ m) : mapGet m k = some b := by
  induction m with
  | nil => simp at h
  | cons p rest ih =>
      simp only [keysOf, List.map_cons, List.nodup_cons] at hnd
      rcases List.mem_cons.mp h with rfl | hrest
      · simp [mapGet]
      · have hk : p.1 ≠ k := by
          intro hpk
          exact hnd.1 (by simpa [keysOf, hpk] using (mem_keysOf.mpr ⟨b, hrest⟩))
        have := ih (by simpa [keysOf] using hnd.2) hrest
        simpa [mapGet, List.find?_cons, hk] using this

lemma keysOf_mapSet_of_mem {m : List (ℕ × DetectedBlob)} {k : ℕ} {v : DetectedBlob}
    (hk : k ∈ keysOf m) : keysOf (mapSet m k v) = keysOf m := by
  rw [mapSet_pos hk]
  simp only [keysOf, List.map_map]
  apply List.map_congr_left
  intro p _
  by_cases hpk : p.1 = k <;> simp [Function.comp, hpk]

lemma keysOf_mapSet_of_not_mem {m : List (ℕ × DetectedBlob)} {k : ℕ} {v : DetectedBlob}
    (hk : k ∉ keysOf m) : keysOf (mapSet m k v) = keysOf m ++ [k] := by
  rw [mapSet_neg hk]
  simp [keysOf]

lemma mem_keysOf_mapSet {m : List (ℕ × DetectedBlob)} {k j : ℕ} {v : DetectedBlob} :
    j ∈ keysOf (mapSet m k v) ↔ j ∈ keysOf m ∨ j = k := by
  by_cases hk : k ∈ keysOf m
  · rw [keysOf_mapSet_of_mem hk]
    constructor
    · exact Or.inl
    · rintro (hj | rfl)
      · exact hj
      · exact hk
  · rw [keysOf_mapSet_of_not_mem hk]
    simp

lemma nodup_keysOf_mapSet {m : List (ℕ × DetectedBlob)} {k : ℕ} {v : DetectedBlob}
    (hnd : (keysOf m).Nodup) : (keysOf (mapSet m k v)).Nodup := by
  by_cases hk : k ∈ keysOf m
  · rw [keysOf_mapSet_of_mem hk]; exact hnd
  · rw [keysOf_mapSet_of_not_mem hk]
    simpa [List.nodup_append, hk] using hnd

lemma mem_mapSet_elim {m : List (ℕ × DetectedBlob)} {k : ℕ} {v kv2 : _}
    (h : kv2 ∈ mapSet m k v) : kv2 ∈ m ∨ kv2 = (k, v) := by
  by_cases hk : k ∈ keysOf m
  · rw [mapSet_pos hk] at h
    obtain ⟨p, hp, hkv⟩ := List.mem_map.mp h
    by_cases hpk : p.1 = k
    · rw [if_pos hpk] at hkv
      exact Or.inr hkv.symm
    · rw [if_neg hpk] at hkv
      exact Or.inl (hkv ▸ hp)
  · rw [mapSet_neg hk] at h
    simpa using h

lemma find?_map_ite {m : List (ℕ × DetectedBlob)} {k : ℕ} {v : DetectedBlob}
    (hk : k ∈ keysOf m) :
    (m.map (fun p => if p.1 = k then (k, v) else p)).find?
      (fun p => decide (p.1 = k)) = some (k, v) := by
  induction m with
  | nil => simp [keysOf] at hk
  | cons p rest ih =>
      by_cases hpk : p.1 = k
      · simp [List.find?_cons, hpk]
      · have hk2 : k ∈ keysOf rest := by
          rcases (by simpa [keysOf] using hk : k = p.1 ∨ ∃ x, (k, x) ∈ rest) with h | h
          · exact absurd h.symm hpk
          · exact mem_keysOf.mpr h
        simpa [List.find?_cons, hpk] using ih hk2

lemma mapGet_mapSet_self {m : List (ℕ × DetectedBlob)} {k : ℕ} {v : DetectedBlob} :
    mapGet (mapSet m k v) k = some v := by
  by_cases hk : k ∈ keysOf m
  · rw [mapSet_pos hk]
    simp [mapGet, find?_map_ite hk]
  · rw [mapSet_neg hk]
    have hfind : m.find? (fun p => decide (p.1 = k)) = none := by
      rw [List.find?_eq_none]
      intro p hp
      simp only [decide_eq_true_eq]
      intro hpk
      have hp2 : (p.1, p.2) ∈ m := by simpa using hp
      exact hk (mem_keysOf.mpr ⟨p.2, hpk ▸ hp2⟩)
    simp [mapGet, List.find?_append, hfind]

lemma mapGet_mapSet_other {m : List (ℕ × DetectedBlob)} {k j : ℕ} {v : DetectedBlob}
    (hjk : j ≠ k) : mapGet (mapSet m k v) j = mapGet m j := by
  by_cases hk : k ∈ keysOf m
  · rw [mapSet_pos hk]
    clear hk
    induction m with
    | nil => simp
    | cons p rest ih =>
        by_cases hpk : p.1 = k
        · have hpj : ¬ p.1 = j := fun h => hjk (h ▸ hpk)
          have hkj : ¬ k = j := fun h => hjk h.symm
          simp only [mapGet, List.map_cons, List.find?_cons, if_pos hpk] at ih ⊢
          simpa [hkj, hpj] using ih
        · by_cases hpj : p.1 = j
          · simp [mapGet, List.find?_cons, if_neg hpk, hpj, hjk]
          · simp only [mapGet, List.map_cons, List.find?_cons, if_neg hpk] at ih ⊢
            simpa [hpj] using ih
  · rw [mapSet_neg hk]
    have hkj : ¬ (k = j) := fun h => hjk h.symm
    simp [mapGet, List.find?_append, hkj]

/-! Lemmas about the prune pass. -/

lemma mem_prune {now : ℤ} {m : List (ℕ × DetectedBlob)} {kv : ℕ × DetectedBlob} :
    kv ∈ prune now m ↔ kv ∈ m ∧ ¬ BLOB_TIMEOUT < now - kv.2.lastSeen := by
  simp [prune, List.mem_filter]

lemma keysOf_prune_sublist {now : ℤ} {m : List (ℕ × DetectedBlob)} :
    (keysOf (prune now m)).Sublist (keysOf m) :=
  (List.filter_sublist m).map Prod.fst

lemma nodup_keysOf_prune {now : ℤ} {m : List (ℕ × DetectedBlob)}
    (hnd : (keysOf m).Nodup) : (keysOf (prune now m)).Nodup :=
  keysOf_prune_sublist.nodup hnd

lemma mapGet_prune_of_kept {now : ℤ} {m : List (ℕ × DetectedBlob)} {k : ℕ}
    {b : DetectedBlob} (hnd : (keysOf m).Nodup) (h : mapGet m k = some b)
    (hkeep : ¬ BLOB_TIMEOUT < now - b.lastSeen) :
    mapGet (prune now m) k = some b :=
  mapGet_eq_some_of_mem (nodup_keysOf_prune hnd)
    (mem_prune.mpr ⟨mapGet_eq_some_mem h, hkeep⟩)

lemma not_mem_keysOf_prune {now : ℤ} {m : List (ℕ × DetectedBlob)} {k : ℕ}
    {b : DetectedBlob} (hnd : (keysOf m).Nodup) (h : mapGet m k = some b)
    (hstale : BLOB_TIMEOUT < now - b.lastSeen) :
    k ∉ keysOf (prune now m) := by
  intro hk
  obtain ⟨b2, hb2⟩ := mem_keysOf.mp hk
  have hb2m := mem_prune.mp hb2
  have : mapGet m k = some b2 := mapGet_eq_some_of_mem hnd hb2m.1
  rw [h] at this
  cases this
  exact hb2m.2 hstale

lemma mem_keysOf_prune_elim {now : ℤ} {m : List (ℕ × DetectedBlob)} {k : ℕ}
    (h : k ∈ keysOf (prune now m)) : k ∈ keysOf m :=
  keysOf_prune_sublist.mem h

/-! Specification of the closest-blob scan. -/

/-- Master invariant of the scan, by induction over the remaining entries with
a generalized accumulator: (A) the result is the initial accumulator or a
sound match taken from the list, (D) the accumulator is either untouched or
its distance strictly decreased, and (C) the final distance is at most every
unassigned finite squared distance occurring in the list. -/
lemma closestScan_foldl_spec (c : Candidate) (a : List ℕ) :
    ∀ (blobs : List (ℕ × DetectedBlob)) (cur : Option (ℕ × DetectedBlob) × ℚ),
      (blobs.foldl (closestScan c a) cur = cur ∨
        (∃ i b, (blobs.foldl (closestScan c a) cur).1 = some (i, b) ∧
          (i, b) ∈ blobs ∧ i ∉ a ∧
          distSq c.x c.y b.x b.y = some (blobs.foldl (closestScan c a) cur).2)) ∧
      ((blobs.foldl (closestScan c a) cur).1 = cur.1 ∧
          (blobs.foldl (closestScan c a) cur).2 = cur.2 ∨
        (blobs.foldl (closestScan c a) cur).2 < cur.2) ∧
      (∀ j bj d, (j, bj) ∈ blobs → j ∉ a → distSq c.x c.y bj.x bj.y = some d →
        (blobs.foldl (closestScan c a) cur).2 ≤ d) := by
  intro blobs
  induction blobs with
  | nil =>
      intro cur
      refine ⟨Or.inl rfl, Or.inl ⟨rfl, rfl⟩, ?_⟩
      intro j bj d h
      simp at h
  | cons kv rest ih =>
      intro cur
      rw [List.foldl_cons]
      obtain ⟨ihA, ihD, ihC⟩ := ih (closestScan c a cur kv)
      have hle : (rest.foldl (closestScan c a) (closestScan c a cur kv)).2 ≤
          (closestScan c a cur kv).2 := by
        rcases ihD with ⟨_, h2⟩ | h2
        · exact le_of_eq h2
        · exact le_of_lt h2
      by_cases hka : kv.1 ∈ a
      · have hscan : closestScan c a cur kv = cur := by simp [closestScan, hka]
        rw [hscan] at ihA ihD ihC hle ⊢
        refine ⟨?_, ihD, ?_⟩
        · rcases ihA with h | ⟨i, b, h1, h2, h3, h4⟩
          · exact Or.inl h
          · exact Or.inr ⟨i, b, h1, List.mem_cons_of_mem _ h2, h3, h4⟩
        · intro j bj d hmem hja hd
          rcases List.mem_cons.mp hmem with heq | hmem2
          · exfalso
            apply hja
            have : j = kv.1 := by rw [← heq]
            rw [this]
            exact hka
          · exact ihC j bj d hmem2 hja hd
      · rcases hds : distSq c.x c.y kv.2.x kv.2.y with _ | d0
        · have hscan : closestScan c a cur kv = cur := by
            simp [closestScan, hka, hds]
          rw [hscan] at ihA ihD ihC hle ⊢
          refine ⟨?_, ihD, ?_⟩
          · rcases ihA with h | ⟨i, b, h1, h2, h3, h4⟩
            · exact Or.inl h
            · exact Or.inr ⟨i, b, h1, List.mem_cons_of_mem _ h2, h3, h4⟩
          · intro j bj d hmem hja hd
            rcases List.mem_cons.mp hmem with heq | hmem2
            · exfalso
              have hb1 : bj = kv.2 := by rw [← heq]
              rw [hb1, hds] at hd
              simp at hd
            · exact ihC j bj d hmem2 hja hd
        · by_cases hdlt : d0 < cur.2
          · have hscan : closestScan c a cur kv = (some kv, d0) := by
              simp [closestScan, hka, hds, hdlt]
            rw [hscan] at ihA ihD ihC hle ⊢
            refine ⟨?_, ?_, ?_⟩
            · rcases ihA with h | ⟨i, b, h1, h2, h3, h4⟩
              · refine Or.inr ⟨kv.1, kv.2, ?_, List.mem_cons_self _ _, hka, ?_⟩
                · rw [h]
                · rw [h, hds]
              · exact Or.inr ⟨i, b, h1, List.mem_cons_of_mem _ h2, h3, h4⟩
            · rcases ihD with ⟨_, h2⟩ | h2
              · exact Or.inr (by rw [h2]; exact hdlt)
              · exact Or.inr (lt_trans h2 hdlt)
            · intro j bj d hmem hja hd
              rcases List.mem_cons.mp hmem with heq | hmem2
              · have hb1 : bj = kv.2 := by rw [← heq]
                rw [hb1, hds] at hd
                cases hd
                exact hle
              · exact ihC j bj d hmem2 hja hd
          · have hscan : closestScan c a cur kv = cur := by
              simp [closestScan, hka, hds, hdlt]
            rw [hscan] at ihA ihD ihC hle ⊢
            refine ⟨?_, ihD, ?_⟩
            · rcases ihA with h | ⟨i, b, h1, h2, h3, h4⟩
              · exact Or.inl h
              · exact Or.inr ⟨i, b, h1, List.mem_cons_of_mem _ h2, h3, h4⟩
            · intro j bj d hmem hja hd
              rcases List.mem_cons.mp hmem with heq | hmem2
              · have hb1 : bj = kv.2 := by rw [← heq]
                rw [hb1, hds] at hd
                cases hd
                exact le_trans hle (not_lt.mp hdlt)
              · exact ihC j bj d hmem2 hja hd

/-- Soundness of findClosest: a returned match is an unassigned entry of the
scanned list whose squared distance is the returned minimum, and that minimum
is strictly below the squared radius. -/
lemma findClosest_some {c : Candidate} {a : List ℕ} {maxDistSq : ℚ}
    {blobs : List (ℕ × DetectedBlob)} {i : ℕ} {b : DetectedBlob}
    (h : (findClosest c a maxDistSq blobs).1 = some (i, b)) :
    (i, b) ∈ blobs ∧ i ∉ a ∧
      distSq c.x c.y b.x b.y = some (findClosest c a maxDistSq blobs).2 ∧
      (findClosest c a maxDistSq blobs).2 < maxDistSq := by
  obtain ⟨hA, hD, _⟩ := closestScan_foldl_spec c a blobs (none, maxDistSq)
  rw [findClosest] at h ⊢
  rcases hA with heq | ⟨i2, b2, h1, h2, h3, h4⟩
  · rw [heq] at h
    cases h
  · rw [h1] at h
    cases h
    have hlt : (blobs.foldl (closestScan c a) (none, maxDistSq)).2 < maxDistSq := by
      rcases hD with ⟨hfst, _⟩ | hlt2
      · rw [h1] at hfst
        cases hfst
      · exact hlt2
    exact ⟨h2, h3, h4, hlt⟩

/-- Minimality of findClosest: the returned squared minimum is at most the
squared distance to every unassigned entry at finite distance. -/
lemma findClosest_min {c : Candidate} {a : List ℕ} {maxDistSq : ℚ}
    {blobs : List (ℕ × DetectedBlob)} {j : ℕ} {bj : DetectedBlob} {d : ℚ}
    (hmem : (j, bj) ∈ blobs) (hja : j ∉ a)
    (hd : distSq c.x c.y bj.x bj.y = some d) :
    (findClosest c a maxDistSq blobs).2 ≤ d := by
  obtain ⟨_, _, hC⟩ := closestScan_foldl_spec c a blobs (none, maxDistSq)
  exact hC j bj d hmem hja hd

/-- Completeness of the radius test: when every unassigned entry is at or
beyond the squared radius (or at non-finite distance), findClosest returns no
match. -/
lemma findClosest_none {c : Candidate} {a : List ℕ} {maxDistSq : ℚ}
    {blobs : List (ℕ × DetectedBlob)}
    (h : ∀ j bj d, (j, bj) ∈ blobs → j ∉ a →
      distSq c.x c.y bj.x bj.y = some d → maxDistSq ≤ d) :
    (findClosest c a maxDistSq blobs).1 = none := by
  rcases hres : (findClosest c a maxDistSq blobs).1 with _ | ⟨j, bj⟩
  · rfl
  · exfalso
    obtain ⟨hmem, hja, hd, hlt⟩ := findClosest_some hres
    exact absurd (h j bj _ hmem hja hd) (not_le.mpr hlt)

/-- Positive direction of the radius test: as soon as one unassigned entry
lies at a finite squared distance strictly below the squared radius, the scan
does return a match — the running minimum ends strictly below the radius, so
it cannot still be the initial accumulator. -/
lemma findClosest_isSome {c : Candidate} {a : List ℕ} {maxDistSq : ℚ}
    {blobs : List (ℕ × DetectedBlob)} {j : ℕ} {bj : DetectedBlob} {d : ℚ}
    (hmem : (j, bj) ∈ blobs) (hja : j ∉ a)
    (hd : distSq c.x c.y bj.x bj.y = some d) (hlt : d < maxDistSq) :
    ∃ i b, (findClosest c a maxDistSq blobs).1 = some (i, b) := by
  obtain ⟨hA, _, hC⟩ := closestScan_foldl_spec c a blobs (none, maxDistSq)
  rcases hA with heq | ⟨i, b, h1, _, _, _⟩
  · exfalso
    have h2 : (blobs.foldl (closestScan c a) (none, maxDistSq)).2 = maxDistSq := by
      rw [heq]
    have h3 := hC j bj d hmem hja hd
    rw [h2] at h3
    exact absurd hlt (not_lt.mpr h3)
  · exact ⟨i, b, by rw [findClosest]; exact h1⟩

/-- A candidate with a non-finite coordinate is at non-finite distance from
every blob, so the scan never selects a match for it. -/
lemma findClosest_nonfinite {c : Candidate} {a : List ℕ} {maxDistSq : ℚ}
    {blobs : List (ℕ × DetectedBlob)} (h : c.x = none ∨ c.y = none) :
    findClosest c a maxDistSq blobs = (none, maxDistSq) := by
  have hdist : ∀ bx bY, distSq c.x c.y bx bY = none := by
    intro bx bY
    rcases h with h | h <;> rw [h] <;> rcases c.x with _ | cx <;>
      rcases c.y with _ | cy <;> rcases bx with _ | vx <;>
      rcases bY with _ | vy <;> simp [distSq]
  rw [findClosest]
  induction blobs with
  | nil => rfl
  | cons kv rest ih =>
      rw [List.foldl_cons]
      have hscan : closestScan c a (none, maxDistSq) kv = (none, maxDistSq) := by
        by_cases hka : kv.1 ∈ a
        · simp [closestScan, hka]
        · simp [closestScan, hka, hdist]
      rw [hscan]
      exact ih

/-! Unfolding lemmas for the forEach body. -/

lemma stepCandidate_of_none {s : TrackerSettings} {mds : ℚ} {now : ℤ}
    {acc : TrackAcc} {c : Candidate}
    (hfc : (findClosest c acc.assigned mds acc.active).1 = none) :
    stepCandidate s mds now acc c =
      { acc with
        nextId := acc.nextId + 1,
        active := mapSet acc.active acc.nextId (newBlobOf acc.nextId c now),
        tracked := acc.tracked ++ [newBlobOf acc.nextId c now] } := by
  unfold stepCandidate
  rw [hfc]

lemma stepCandidate_of_some {s : TrackerSettings} {mds : ℚ} {now : ℤ}
    {acc : TrackAcc} {c : Candidate} {i : ℕ} {existing : DetectedBlob}
    (hfc : (findClosest c acc.assigned mds acc.active).1 = some (i, existing)) :
    stepCandidate s mds now acc c =
      { acc with
        active := mapSet acc.active i (updatedBlobOf s existing c now),
        assigned := acc.assigned ++ [i],
        tracked := acc.tracked ++ [updatedBlobOf s existing c now] } := by
  unfold stepCandidate
  rw [hfc]

/-! Reachability invariant of the tracker state and the master invariant of
the matching pass. -/

/-- Invariant of reachable tracker states: active keys are distinct, strictly
below the id counter, and every entry's stored blob carries its key as id. -/
def Inv (st : TrackerState) : Prop :=
  (keysOf st.activeBlobs).Nodup ∧
  (∀ k ∈ keysOf st.activeBlobs, k < st.nextBlobId) ∧
  (∀ kv ∈ st.activeBlobs, (kv : ℕ × DetectedBlob).2.id = kv.1)

/-- Facts preserved by every step of the matching pass, relative to the state
st0 the pass started from and the frame's clock value. -/
structure MatchInv (st0 : TrackerState) (now : ℤ) (acc : TrackAcc) : Prop where
  nodup : (keysOf acc.active).Nodup
  keyLt : ∀ k ∈ keysOf acc.active, k < acc.nextId
  nextLe : st0.nextBlobId ≤ acc.nextId
  keyOrig : ∀ k ∈ keysOf acc.active, k ∈ keysOf st0.activeBlobs ∨ st0.nextBlobId ≤ k
  idKey : ∀ kv ∈ acc.active, (kv : ℕ × DetectedBlob).2.id = kv.1
  trackedLt : ∀ b ∈ acc.tracked, b.id < acc.nextId
  trackedFresh : ∀ b ∈ acc.tracked, b.id ∉ keysOf st0.activeBlobs → st0.nextBlobId ≤ b.id
  trackedSeen : ∀ b ∈ acc.tracked, b.lastSeen = now
  trackedGet : ∀ b ∈ acc.tracked, ∃ b2, mapGet acc.active b.id = some b2 ∧ b2.lastSeen = now
  keysGrow : ∀ k ∈ keysOf st0.activeBlobs, k ∈ keysOf acc.active
  valOrig : ∀ k ∈ keysOf st0.activeBlobs,
    mapGet acc.active k = mapGet st0.activeBlobs k ∨
      ∃ b2, mapGet acc.active k = some b2 ∧ b2.lastSeen = now

lemma matchInv_step {st0 : TrackerState} {now : ℤ} {s : TrackerSettings}
    {mds : ℚ} {acc : TrackAcc} (h : MatchInv st0 now acc) (c : Candidate) :
    MatchInv st0 now (stepCandidate s mds now acc c) := by
  rcases hfc : (findClosest c acc.assigned mds acc.active).1 with _ | ⟨i, existing⟩
  · rw [stepCandidate_of_none hfc]
    have hnotin : acc.nextId ∉ keysOf acc.active := fun hmem =>
      lt_irrefl _ (h.keyLt _ hmem)
    have hkeys : keysOf (mapSet acc.active acc.nextId (newBlobOf acc.nextId c now)) =
        keysOf acc.active ++ [acc.nextId] := keysOf_mapSet_of_not_mem hnotin
    refine ⟨?_, ?_, ?_, ?_, ?_, ?_, ?_, ?_, ?_, ?_, ?_⟩
    · rw [hkeys]
      refine List.Nodup.append h.nodup (List.nodup_singleton _) ?_
      intro a ha hb
      simp only [List.mem_singleton] at hb
      exact hnotin (hb ▸ ha)
    · intro k hk
      rw [hkeys] at hk
      rcases List.mem_append.mp hk with hk | hk
      · exact lt_trans (h.keyLt _ hk) (Nat.lt_succ_self _)
      · simp only [List.mem_singleton] at hk
        exact hk ▸ Nat.lt_succ_self _
    · exact le_trans h.nextLe (Nat.le_succ _)
    · intro k hk
      rw [hkeys] at hk
      rcases List.mem_append.mp hk with hk | hk
      · exact h.keyOrig _ hk
      · simp only [List.mem_singleton] at hk
        exact Or.inr (hk ▸ h.nextLe)
    · intro kv hkv
      rcases mem_mapSet_elim hkv with hkv | hkv
      · exact h.idKey _ hkv
      · rw [hkv]
        rfl
    · intro b hb
      rcases List.mem_append.mp hb with hb | hb
      · exact lt_trans (h.trackedLt _ hb) (Nat.lt_succ_self _)
      · simp only [List.mem_singleton] at hb
        rw [hb]
        exact Nat.lt_succ_self _
    · intro b hb
      rcases List.mem_append.mp hb with hb | hb
      · exact h.trackedFresh _ hb
      · simp only [List.mem_singleton] at hb
        intro _
        rw [hb]
        exact h.nextLe
    · intro b hb
      rcases List.mem_append.mp hb with hb | hb
      · exact h.trackedSeen _ hb
      · simp only [List.mem_singleton] at hb
        rw [hb]
        rfl
    · intro b hb
      rcases List.mem_append.mp hb with hb | hb
      · have hne : b.id ≠ acc.nextId := Nat.ne_of_lt (h.trackedLt _ hb)
        rw [mapGet_mapSet_other hne]
        exact h.trackedGet _ hb
      · simp only [List.mem_singleton] at hb
        rw [hb]
        exact ⟨newBlobOf acc.nextId c now, mapGet_mapSet_self, rfl⟩
    · intro k hk
      exact mem_keysOf_mapSet.mpr (Or.inl (h.keysGrow _ hk))
    · intro k hk
      have hne : k ≠ acc.nextId := Nat.ne_of_lt (h.keyLt _ (h.keysGrow _ hk))
      rw [mapGet_mapSet_other hne]
      exact h.valOrig _ hk
  · rw [stepCandidate_of_some hfc]
    obtain ⟨hmem, _, _, _⟩ := findClosest_some hfc
    have hik : i ∈ keysOf acc.active := mem_keysOf.mpr ⟨existing, hmem⟩
    have hid : (updatedBlobOf s existing c now).id = i := h.idKey (i, existing) hmem
    have hkeys : keysOf (mapSet acc.active i (updatedBlobOf s existing c now)) =
        keysOf acc.active := keysOf_mapSet_of_mem hik
    refine ⟨?_, ?_, ?_, ?_, ?_, ?_, ?_, ?_, ?_, ?_, ?_⟩
    · rw [hkeys]; exact h.nodup
    · intro k hk
      rw [hkeys] at hk
      exact h.keyLt _ hk
    · exact h.nextLe
    · intro k hk
      rw [hkeys] at hk
      exact h.keyOrig _ hk
    · intro kv hkv
      rcases mem_mapSet_elim hkv with hkv | hkv
      · exact h.idKey _ hkv
      · rw [hkv]
        exact hid
    · intro b hb
      rcases List.mem_append.mp hb with hb | hb
      · exact h.trackedLt _ hb
      · simp only [List.mem_singleton] at hb
        rw [hb, hid]
        exact h.keyLt _ hik
    · intro b hb
      rcases List.mem_append.mp hb with hb | hb
      · exact h.trackedFresh _ hb
      · simp only [List.mem_singleton] at hb
        rw [hb, hid]
        intro hnot
        rcases h.keyOrig _ hik with hor | hor
        · exact absurd hor hnot
        · exact hor
    · intro b hb
      rcases List.mem_append.mp hb with hb | hb
      · exact h.trackedSeen _ hb
      · simp only [List.mem_singleton] at hb
        rw [hb]
        rfl
    · intro b hb
      rcases List.mem_append.mp hb with hb | hb
      · by_cases hbi : b.id = i
        · rw [hbi, mapGet_mapSet_self]
          exact ⟨updatedBlobOf s existing c now, rfl, rfl⟩
        · rw [mapGet_mapSet_other hbi]
          exact h.trackedGet _ hb
      · simp only [List.mem_singleton] at hb
        rw [hb, hid, mapGet_mapSet_self]
        exact ⟨updatedBlobOf s existing c now, rfl, rfl⟩
    · intro k hk
      exact mem_keysOf_mapSet.mpr (Or.inl (h.keysGrow _ hk))
    · intro k hk
      by_cases hki : k = i
      · rw [hki, mapGet_mapSet_self]
        exact Or.inr ⟨updatedBlobOf s existing c now, rfl, rfl⟩
      · rw [mapGet_mapSet_other hki]
        exact h.valOrig _ hk

lemma matchInv_init {st0 : TrackerState} {now : ℤ} (h : Inv st0) :
    MatchInv st0 now
      { tracked := [], active := st0.activeBlobs, assigned := [], nextId := st0.nextBlobId } := by
  obtain ⟨h1, h2, h3⟩ := h
  refine ⟨h1, h2, le_refl _, fun k hk => Or.inl hk, h3, ?_, ?_, ?_, ?_, fun k hk => hk,
    fun k _ => Or.inl rfl⟩ <;> intro b hb <;> simp at hb

lemma matchPhase_inv {s : TrackerSettings} {sf : ℚ} {now : ℤ}
    {cands : List Candidate} {st : TrackerState} (h : Inv st) :
    MatchInv st now (matchPhase s sf now cands st) := by
  rw [matchPhase]
  generalize hinit :
    ({ tracked := [], active := st.activeBlobs, assigned := [], nextId := st.nextBlobId } :
      TrackAcc) = init
  have hbase : MatchInv st now init := hinit ▸ matchInv_init h
  clear hinit
  induction cands generalizing init with
  | nil => exact hbase
  | cons c rest ih =>
      rw [List.foldl_cons]
      exact ih _ (matchInv_step hbase c)

/-! Concrete test inputs. -/

/-- Settings used by concrete scenarios: the defaults of src/App.tsx
(threshold 100, minArea 100, blurSize 5, historyLength 15, jitter 0.1,
drift 0.2). -/
def sTest : TrackerSettings :=
  { threshold := 100, minArea := 100, blurSize := 5, historyLength := 15,
    jitter := 1 / 10, drift := 2 / 10 }

/-- Fresh tracker state (cvProcessor.ts lines 17-18: counter 1, empty map). -/
def st0 : TrackerState := { nextBlobId := 1, activeBlobs := [] }

/-- Finite candidate at a given position. -/
def candAt (x y : ℚ) : Candidate :=
  { x := some x, y := some y, w := 4, h := 4, area := 150 }

/-- The fresh tracker state satisfies the reachability invariant. -/
lemma inv_st0 : Inv st0 := by
  refine ⟨?_, ?_, ?_⟩ <;> simp [st0, keysOf, Inv]

/-! Claim C1. -/

/-- Claim C1, counterexample to per-call uniqueness: on a fresh tracker a
first candidate at (0, 0) spawns blob id 1, and the second candidate at
(1, 0) — one pixel away, well inside the radius — matches that same
freshly created blob, because the source never adds fresh ids to assignedIds;
the call returns the id list [1, 1], which is not duplicate-free. -/
theorem claim_C1_counterexample :
    ((processCandidates sTest 1 0 [candAt 0 0, candAt 1 0] st0).1.map
      DetectedBlob.id) = [1, 1] ∧
    ¬ ((processCandidates sTest 1 0 [candAt 0 0, candAt 1 0] st0).1.map
      DetectedBlob.id).Nodup := by
  have h : ((processCandidates sTest 1 0 [candAt 0 0, candAt 1 0] st0).1.map
      DetectedBlob.id) = [1, 1] := by
    norm_num [processCandidates, matchPhase, List.foldl, stepCandidate,
      findClosest, closestScan, distSq, mapSet, mapGet, keysOf, prune,
      maxDistOf, MAX_TRACKING_DISTANCE_BASE, BLOB_TIMEOUT, sTest, st0, candAt,
      newBlobOf, updatedBlobOf, max_self]
  refine ⟨h, ?_⟩
  rw [h]
  decide

/-- Claim C1 (amended): ids are assigned monotonically from the counter and
never reused for the tracker's lifetime — the counter never decreases, the
state invariant (distinct active keys, all below the counter) is preserved,
every returned blob's id is below the post-call counter, and every returned
id that is not an already active key is at least the pre-call counter, so a
removed id (always below every later counter value) can never be assigned
again.  Uniqueness of ids within a single call's result does NOT hold: a
later candidate can match a blob created earlier in the same call (see the
counterexample), duplicating that id in the returned list. -/
theorem claim_C1 (s : TrackerSettings) (sf : ℚ) (now : ℤ)
    (cands : List Candidate) (st : TrackerState) (h : Inv st) :
    st.nextBlobId ≤ (processCandidates s sf now cands st).2.nextBlobId ∧
    Inv (processCandidates s sf now cands st).2 ∧
    (∀ b ∈ (processCandidates s sf now cands st).1,
      b.id < (processCandidates s sf now cands st).2.nextBlobId) ∧
    (∀ b ∈ (processCandidates s sf now cands st).1,
      b.id ∉ keysOf st.activeBlobs → st.nextBlobId ≤ b.id) := by
  have hm : MatchInv st now (matchPhase s sf now cands st) := matchPhase_inv h
  simp only [processCandidates]
  refine ⟨hm.nextLe, ⟨?_, ?_, ?_⟩, ?_, ?_⟩
  · exact nodup_keysOf_prune hm.nodup
  · intro k hk
    exact hm.keyLt _ (mem_keysOf_prune_elim hk)
  · intro kv hkv
    exact hm.idKey _ (mem_prune.mp hkv).1
  · intro b hb
    exact hm.trackedLt _ hb
  · intro b hb
    exact hm.trackedFresh _ hb

/-- Witness for claim C1 at a concrete input. -/
theorem claim_C1_witness :
    Inv st0 ∧
    st0.nextBlobId ≤ (processCandidates sTest 1 0 [candAt 0 0] st0).2.nextBlobId :=
  ⟨inv_st0, (claim_C1 sTest 1 0 [candAt 0 0] st0 inv_st0).1⟩

/-! Claim C4: history bound. -/

/-- A matched blob's new history stays within the bound when the old one did:
the append adds one element and the conditional shift removes one. -/
lemma updatedBlobOf_history_le {s : TrackerSettings} {existing : DetectedBlob}
    {c : Candidate} {now : ℤ}
    (h : existing.history.length ≤ s.historyLength) :
    (updatedBlobOf s existing c now).history.length ≤ s.historyLength := by
  simp only [updatedBlobOf]
  by_cases hc : s.historyLength <
      (existing.history ++ [(⟨existing.x, existing.y⟩ : Point)]).length
  · rw [if_pos hc]
    simp only [List.length_drop, List.length_append, List.length_singleton]
    omega
  · rw [if_neg hc]
    simp only [List.length_append, List.length_singleton] at hc ⊢
    omega

/-- The history bound is preserved through the whole matching pass. -/
lemma matchPhase_hist {s : TrackerSettings} {sf : ℚ} {now : ℤ}
    {cands : List Candidate} {st : TrackerState}
    (h : ∀ kv ∈ st.activeBlobs,
      (kv : ℕ × DetectedBlob).2.history.length ≤ s.historyLength) :
    (∀ kv ∈ (matchPhase s sf now cands st).active,
      (kv : ℕ × DetectedBlob).2.history.length ≤ s.historyLength) ∧
    (∀ b ∈ (matchPhase s sf now cands st).tracked,
      b.history.length ≤ s.historyLength) := by
  rw [matchPhase]
  generalize hinit :
    ({ tracked := [], active := st.activeBlobs, assigned := [], nextId := st.nextBlobId } :
      TrackAcc) = init
  have hA : ∀ kv ∈ init.active,
      (kv : ℕ × DetectedBlob).2.history.length ≤ s.historyLength := by
    rw [← hinit]; exact h
  have hT : ∀ b ∈ init.tracked, b.history.length ≤ s.historyLength := by
    rw [← hinit]; intro b hb; simp at hb
  clear hinit
  induction cands generalizing init with
  | nil => exact ⟨hA, hT⟩
  | cons c rest ih =>
      rw [List.foldl_cons]
      apply ih
      · rcases hfc : (findClosest c init.assigned ((maxDistOf sf) ^ 2)
            init.active).1 with _ | ⟨i, existing⟩
        · rw [stepCandidate_of_none hfc]
          intro kv hkv
          rcases mem_mapSet_elim hkv with hkv | hkv
          · exact hA _ hkv
          · rw [hkv]
            simp [newBlobOf]
        · rw [stepCandidate_of_some hfc]
          obtain ⟨hmem, _, _, _⟩ := findClosest_some hfc
          have hex := hA _ hmem
          intro kv hkv
          rcases mem_mapSet_elim hkv with hkv | hkv
          · exact hA _ hkv
          · rw [hkv]
            exact updatedBlobOf_history_le hex
      · rcases hfc : (findClosest c init.assigned ((maxDistOf sf) ^ 2)
            init.active).1 with _ | ⟨i, existing⟩
        · rw [stepCandidate_of_none hfc]
          intro b hb
          rcases List.mem_append.mp hb with hb | hb
          · exact hT _ hb
          · simp only [List.mem_singleton] at hb
            rw [hb]
            simp [newBlobOf]
        · rw [stepCandidate_of_some hfc]
          obtain ⟨hmem, _, _, _⟩ := findClosest_some hfc
          have hex := hA _ hmem
          intro b hb
          rcases List.mem_append.mp hb with hb | hb
          · exact hT _ hb
          · simp only [List.mem_singleton] at hb
            rw [hb]
            exact updatedBlobOf_history_le hex

/-- Claim C4 (confirmed): when every active blob's history is within the bound
before a call, then after the call every active blob's history and every
returned blob's history have length at most historyLength, and for
historyLength = 0 every active history is empty.  (The hypothesis holds for
every reachable state under a fixed historyLength, starting from the empty
tracker.) -/
theorem claim_C4 (s : TrackerSettings) (sf : ℚ) (now : ℤ)
    (cands : List Candidate) (st : TrackerState)
    (h : ∀ kv ∈ st.activeBlobs,
      (kv : ℕ × DetectedBlob).2.history.length ≤ s.historyLength) :
    (∀ kv ∈ (processCandidates s sf now cands st).2.activeBlobs,
      (kv : ℕ × DetectedBlob).2.history.length ≤ s.historyLength) ∧
    (∀ b ∈ (processCandidates s sf now cands st).1,
      b.history.length ≤ s.historyLength) ∧
    (s.historyLength = 0 →
      ∀ kv ∈ (processCandidates s sf now cands st).2.activeBlobs,
        (kv : ℕ × DetectedBlob).2.history = []) := by
  obtain ⟨hA, hT⟩ := matchPhase_hist h
  simp only [processCandidates]
  refine ⟨?_, hT, ?_⟩
  · intro kv hkv
    exact hA _ (mem_prune.mp hkv).1
  · intro h0 kv hkv
    have := hA _ (mem_prune.mp hkv).1
    rw [h0, Nat.le_zero] at this
    exact List.eq_nil_of_length_eq_zero this

/-- Witness for claim C4 at a concrete input. -/
theorem claim_C4_witness :
    (∀ kv ∈ st0.activeBlobs,
      (kv : ℕ × DetectedBlob).2.history.length ≤ sTest.historyLength) ∧
    ∀ b ∈ (processCandidates sTest 1 0 [candAt 0 0] st0).1,
      b.history.length ≤ sTest.historyLength :=
  ⟨by intro kv hkv; simp [st0] at hkv,
    (claim_C4 sTest 1 0 [candAt 0 0] st0 (by intro kv hkv; simp [st0] at hkv)).2.1⟩

/-! Claim C10: returned blobs survive the prune pass. -/

/-- Claim C10 (confirmed): the timeout constant is positive, and every blob
returned by a call is present in the active set immediately after the call —
the prune pass cannot remove it because its stored entry has lastSeen equal to
the call's now. -/
theorem claim_C10 (s : TrackerSettings) (sf : ℚ) (now : ℤ)
    (cands : List Candidate) (st : TrackerState) (h : Inv st) :
    0 < BLOB_TIMEOUT ∧
    ∀ b ∈ (processCandidates s sf now cands st).1,
      ∃ b2, mapGet (processCandidates s sf now cands st).2.activeBlobs b.id = some b2 ∧
        b2.lastSeen = now := by
  have hm : MatchInv st now (matchPhase s sf now cands st) := matchPhase_inv h
  refine ⟨by decide, ?_⟩
  intro b hb
  simp only [processCandidates] at hb ⊢
  obtain ⟨b2, hget, hseen⟩ := hm.trackedGet b hb
  refine ⟨b2, ?_, hseen⟩
  apply mapGet_prune_of_kept hm.nodup hget
  rw [hseen]
  simp only [BLOB_TIMEOUT]
  omega

/-- Witness for claim C10 at a concrete input. -/
theorem claim_C10_witness :
    Inv st0 ∧
    ∀ b ∈ (processCandidates sTest 1 0 [candAt 0 0] st0).1,
      ∃ b2, mapGet (processCandidates sTest 1 0 [candAt 0 0] st0).2.activeBlobs b.id =
        some b2 ∧ b2.lastSeen = 0 :=
  ⟨inv_st0, (claim_C10 sTest 1 0 [candAt 0 0] st0 inv_st0).2⟩

/-! Claim C5: removal happens exactly on timeout, after the matching pass. -/

/-- Claim C5 (confirmed): for a blob active before the call, (a) it is absent
from the active set after the call iff its post-matching-pass entry has
now - lastSeen exceeding BLOB_TIMEOUT — so removal is decided after the
frame's matching pass and there is no other deletion path; (b) every returned
blob has lastSeen = now, so a stale unmatched blob is never in the result; and
(c) a blob stale at entry is absent afterwards unless this very call matched
it (in which case its lastSeen is now). -/
theorem claim_C5 (s : TrackerSettings) (sf : ℚ) (now : ℤ)
    (cands : List Candidate) (st : TrackerState) (h : Inv st) :
    (∀ k, k ∈ keysOf st.activeBlobs →
      (k ∉ keysOf (processCandidates s sf now cands st).2.activeBlobs ↔
        ∃ b2, mapGet (matchPhase s sf now cands st).active k = some b2 ∧
          BLOB_TIMEOUT < now - b2.lastSeen)) ∧
    (∀ b ∈ (processCandidates s sf now cands st).1, b.lastSeen = now) ∧
    (∀ k b, mapGet st.activeBlobs k = some b → BLOB_TIMEOUT < now - b.lastSeen →
      (k ∉ keysOf (processCandidates s sf now cands st).2.activeBlobs ∨
        ∃ b2, mapGet (processCandidates s sf now cands st).2.activeBlobs k = some b2 ∧
          b2.lastSeen = now)) := by
  have hm : MatchInv st now (matchPhase s sf now cands st) := matchPhase_inv h
  simp only [processCandidates]
  refine ⟨?_, ?_, ?_⟩
  · intro k hk
    have hk2 : k ∈ keysOf (matchPhase s sf now cands st).active := hm.keysGrow _ hk
    obtain ⟨b2m, hb2m⟩ := mem_keysOf.mp hk2
    have hget : mapGet (matchPhase s sf now cands st).active k = some b2m :=
      mapGet_eq_some_of_mem hm.nodup hb2m
    constructor
    · intro hout
      refine ⟨b2m, hget, ?_⟩
      by_contra hkeep
      apply hout
      have := mapGet_prune_of_kept hm.nodup hget hkeep
      exact mem_keysOf.mpr ⟨b2m, mapGet_eq_some_mem this⟩
    · rintro ⟨b2, hget2, hstale⟩
      have : b2 = b2m := by
        rw [hget] at hget2
        exact (Option.some.inj hget2).symm
      rw [this] at hstale
      exact not_mem_keysOf_prune hm.nodup hget hstale
  · intro b hb
    exact hm.trackedSeen _ hb
  · intro k b hget hstale
    have hk : k ∈ keysOf st.activeBlobs := mem_keysOf.mpr ⟨b, mapGet_eq_some_mem hget⟩
    rcases hm.valOrig _ hk with hsame | ⟨b2, hget2, hseen2⟩
    · left
      rw [hget] at hsame
      exact not_mem_keysOf_prune hm.nodup hsame hstale
    · right
      refine ⟨b2, ?_, hseen2⟩
      apply mapGet_prune_of_kept hm.nodup hget2
      rw [hseen2]
      simp only [BLOB_TIMEOUT]
      omega

/-- State holding one blob with id 1 at the origin, created at time 0. -/
def stOne : TrackerState := { nextBlobId := 2, activeBlobs := [(1, newBlobOf 1 (candAt 0 0) 0)] }

lemma inv_stOne : Inv stOne := by
  refine ⟨?_, ?_, ?_⟩ <;> simp [stOne, keysOf, Inv, newBlobOf]

/-- Witness for claim C5 at a concrete input: the blob of stOne, last seen at
time 0, is stale at time 1000 and the call gets no candidates, so the blob is
gone afterwards (or was matched, which part (b) of the disjunction carries). -/
theorem claim_C5_witness :
    Inv stOne ∧
    mapGet stOne.activeBlobs 1 = some (newBlobOf 1 (candAt 0 0) 0) ∧
    BLOB_TIMEOUT < (1000 : ℤ) - (newBlobOf 1 (candAt 0 0) 0).lastSeen ∧
    (1 ∉ keysOf (processCandidates sTest 1 1000 [] stOne).2.activeBlobs ∨
      ∃ b2, mapGet (processCandidates sTest 1 1000 [] stOne).2.activeBlobs 1 = some b2 ∧
        b2.lastSeen = 1000) := by
  have hget : mapGet stOne.activeBlobs 1 = some (newBlobOf 1 (candAt 0 0) 0) := by
    simp [stOne, mapGet]
  have hstale : BLOB_TIMEOUT < (1000 : ℤ) - (newBlobOf 1 (candAt 0 0) 0).lastSeen := by
    simp [newBlobOf, BLOB_TIMEOUT]
  exact ⟨inv_stOne, hget, hstale,
    (claim_C5 sTest 1 1000 [] stOne inv_stOne).2.2 1 (newBlobOf 1 (candAt 0 0) 0) hget hstale⟩

/-! Claim C2: greedy nearest-neighbour matching under a strict radius. -/

/-- Claim C2 (confirmed): (1) a candidate that matches is matched to an
unassigned active blob whose squared distance is strictly below the squared
radius and minimal among all unassigned active blobs at finite distance;
(2) when every unassigned active blob lies at or beyond the radius (or at
non-finite distance) the candidate matches nothing; (3) a matchless candidate
always spawns a fresh blob carrying the current id counter, which is then
incremented; (4) conversely, as soon as one unassigned active blob lies at a
finite squared distance strictly inside the squared radius, the candidate IS
matched to some blob — which by (1) is minimal and within the radius; (5) a
candidate whose scan returns a match takes the match branch: the chosen blob
is updated in place, its id is marked assigned and the updated blob is
appended to the result; and (6) concretely, with one existing blob at the
origin and the radius at 100, a candidate at distance 500 spawns the fresh
id 2 while a candidate at distance 5 matches the existing id 1. -/
theorem claim_C2 :
    (∀ (c : Candidate) (a : List ℕ) (mds : ℚ) (blobs : List (ℕ × DetectedBlob))
        (i : ℕ) (b : DetectedBlob),
      (findClosest c a mds blobs).1 = some (i, b) →
        (i, b) ∈ blobs ∧ i ∉ a ∧
        ∃ d, distSq c.x c.y b.x b.y = some d ∧ d < mds ∧
          ∀ j bj d2, (j, bj) ∈ blobs → j ∉ a →
            distSq c.x c.y bj.x bj.y = some d2 → d ≤ d2) ∧
    (∀ (c : Candidate) (a : List ℕ) (mds : ℚ) (blobs : List (ℕ × DetectedBlob)),
      (∀ j bj d2, (j, bj) ∈ blobs → j ∉ a →
        distSq c.x c.y bj.x bj.y = some d2 → mds ≤ d2) →
      (findClosest c a mds blobs).1 = none) ∧
    (∀ (s : TrackerSettings) (mds : ℚ) (now : ℤ) (acc : TrackAcc) (c : Candidate),
      (findClosest c acc.assigned mds acc.active).1 = none →
        stepCandidate s mds now acc c =
          { acc with
            nextId := acc.nextId + 1,
            active := mapSet acc.active acc.nextId (newBlobOf acc.nextId c now),
            tracked := acc.tracked ++ [newBlobOf acc.nextId c now] }) ∧
    (∀ (c : Candidate) (a : List ℕ) (mds : ℚ) (blobs : List (ℕ × DetectedBlob))
        (j : ℕ) (bj : DetectedBlob) (d : ℚ),
      (j, bj) ∈ blobs → j ∉ a → distSq c.x c.y bj.x bj.y = some d → d < mds →
        ∃ i b, (findClosest c a mds blobs).1 = some (i, b)) ∧
    (∀ (s : TrackerSettings) (mds : ℚ) (now : ℤ) (acc : TrackAcc) (c : Candidate)
        (i : ℕ) (existing : DetectedBlob),
      (findClosest c acc.assigned mds acc.active).1 = some (i, existing) →
        stepCandidate s mds now acc c =
          { acc with
            active := mapSet acc.active i (updatedBlobOf s existing c now),
            assigned := acc.assigned ++ [i],
            tracked := acc.tracked ++ [updatedBlobOf s existing c now] }) ∧
    ((processCandidates sTest 1 0 [candAt 300 400, candAt 3 4] stOne).1.map
        (fun b => (b.id, b.x, b.y)) =
      [(2, some 300, some 400), (1, some 3, some 4)]) := by
  refine ⟨?_, ?_, ?_, ?_, ?_, ?_⟩
  · intro c a mds blobs i b hfc
    obtain ⟨hmem, hna, hd, hlt⟩ := findClosest_some hfc
    refine ⟨hmem, hna, (findClosest c a mds blobs).2, hd, hlt, ?_⟩
    intro j bj d2 hjm hja hdj
    exact findClosest_min hjm hja hdj
  · intro c a mds blobs h
    exact findClosest_none h
  · intro s mds now acc c hfc
    exact stepCandidate_of_none hfc
  · intro c a mds blobs j bj d hjm hja hd hlt
    exact findClosest_isSome hjm hja hd hlt
  · intro s mds now acc c i existing hfc
    exact stepCandidate_of_some hfc
  · norm_num [processCandidates, matchPhase, List.foldl, stepCandidate,
      findClosest, closestScan, distSq, mapSet, mapGet, keysOf, prune,
      maxDistOf, MAX_TRACKING_DISTANCE_BASE, BLOB_TIMEOUT, sTest, stOne, candAt,
      newBlobOf, updatedBlobOf, max_self]

/-- Witness for claim C2 at concrete inputs: every blob of stOne sits at
squared distance 250000 from the candidate at (300, 400), past the squared
radius 10000, so the scan returns no match; the candidate at (3, 4) sees the
blob at the origin at squared distance 25, inside the radius, so the scan
returns a match. -/
theorem claim_C2_witness :
    (findClosest (candAt 300 400) [] ((maxDistOf 1) ^ 2) stOne.activeBlobs).1 = none ∧
    ∃ i b, (findClosest (candAt 3 4) [] ((maxDistOf 1) ^ 2) stOne.activeBlobs).1 =
      some (i, b) := by
  constructor
  · apply claim_C2.2.1
    intro j bj d2 hjm hja hdj
    simp only [stOne, List.mem_singleton] at hjm
    have hj : j = 1 := by rw [Prod.mk.injEq] at hjm; exact hjm.1
    have hb : bj = newBlobOf 1 (candAt 0 0) 0 := by
      rw [Prod.mk.injEq] at hjm; exact hjm.2
    rw [hb] at hdj
    simp only [newBlobOf, candAt, distSq] at hdj
    have hd2 : d2 = 250000 := by
      have := (Option.some.inj hdj).symm
      rw [this]; norm_num
    rw [hd2]
    norm_num [maxDistOf, MAX_TRACKING_DISTANCE_BASE, max_self]
  · apply claim_C2.2.2.2.1 (candAt 3 4) [] ((maxDistOf 1) ^ 2) stOne.activeBlobs
      1 (newBlobOf 1 (candAt 0 0) 0) 25
    · simp [stOne]
    · simp
    · simp [newBlobOf, candAt, distSq]
      norm_num
    · norm_num [maxDistOf, MAX_TRACKING_DISTANCE_BASE, max_self]

/-! Claim C3: area admission. -/

/-- The extraction filter is exactly a filter by the scale-squared area test
followed by the candidate construction. -/
lemma toCandidates_eq (sf minA : ℚ) (rs : List RawRegion) :
    toCandidates sf minA rs =
      (rs.filter (fun r => decide (minA < r.area * (sf * sf)))).map (mkCandidate sf) := by
  induction rs with
  | nil => rfl
  | cons r rest ih =>
      by_cases hc : minA < r.area * (sf * sf)
      · simp only [toCandidates, List.filterMap_cons, if_pos hc, List.filter_cons,
          decide_eq_true_eq, hc, if_true, List.map_cons] at ih ⊢
        rw [ih]
      · simp only [toCandidates, List.filterMap_cons, if_neg hc, List.filter_cons,
          decide_eq_true_eq, hc, if_false] at ih ⊢
        exact ih

/-- Regions for the concrete C3 scenario: full-resolution-equivalent areas 50
and 150 at scale factor 1. -/
def r50 : RawRegion := { area := 50, rx := 0, ry := 0, rw := 2, rh := 2 }

def r150 : RawRegion := { area := 150, rx := 10, ry := 10, rw := 2, rh := 2 }

/-- Claim C3 (confirmed): a region is admitted to tracking iff its area times
the square of the scale factor exceeds minArea; every admitted candidate
stores exactly that adjusted area, which exceeds minArea; and concretely with
minArea = 100 at scale 1, the region of area 50 is dropped while the region of
area 150 is tracked with id 1 and stored area 150 on a fresh tracker. -/
theorem claim_C3 :
    (∀ (sf minA : ℚ) (rs : List RawRegion),
      toCandidates sf minA rs =
        (rs.filter (fun r => decide (minA < r.area * (sf * sf)))).map (mkCandidate sf)) ∧
    (∀ (sf minA : ℚ) (rs : List RawRegion) (c : Candidate),
      c ∈ toCandidates sf minA rs →
        minA < c.area ∧ ∃ r ∈ rs, c = mkCandidate sf r ∧ c.area = r.area * (sf * sf)) ∧
    ((processFrame sTest 1 0 [r50, r150] st0).1.map (fun b => (b.id, b.area)) =
      [(1, 150)]) := by
  refine ⟨toCandidates_eq, ?_, ?_⟩
  · intro sf minA rs c hc
    rw [toCandidates_eq] at hc
    obtain ⟨r, hr, hcr⟩ := List.mem_map.mp hc
    have hrf := List.mem_filter.mp hr
    have harea : minA < r.area * (sf * sf) := by
      simpa using hrf.2
    refine ⟨?_, r, hrf.1, hcr.symm, ?_⟩
    · rw [← hcr]
      simpa [mkCandidate] using harea
    · rw [← hcr]
      rfl
  · norm_num [processFrame, processCandidates, toCandidates, mkCandidate,
      matchPhase, List.foldl, stepCandidate, findClosest, closestScan, distSq,
      mapSet, mapGet, keysOf, prune, maxDistOf, MAX_TRACKING_DISTANCE_BASE,
      BLOB_TIMEOUT, sTest, st0, r50, r150, newBlobOf, updatedBlobOf, max_self]

/-- Witness for claim C3 at a concrete input. -/
theorem claim_C3_witness :
    mkCandidate 1 r150 ∈ toCandidates 1 (100 : ℚ) [r50, r150] ∧
    (100 : ℚ) < (mkCandidate 1 r150).area := by
  have hmem : mkCandidate 1 r150 ∈ toCandidates 1 (100 : ℚ) [r50, r150] := by
    norm_num [toCandidates, mkCandidate, r50, r150]
  exact ⟨hmem, (claim_C3.2.1 1 100 [r50, r150] _ hmem).1⟩

/-! Claim C7: candidates with non-finite coordinates. -/

/-- Candidate whose x coordinate is non-finite (NaN or infinite). -/
def candNaN : Candidate := { x := none, y := some 0, w := 4, h := 4, area := 150 }

/-- Claim C7, counterexample: the source has no finiteness filter.  On stOne
(one blob at the origin) a candidate with non-finite x and y = 0 does not
match — every IEEE comparison involving its distance is false — but it is not
ignored: it spawns a fresh blob with id 2 that appears in the returned list. -/
theorem claim_C7_counterexample :
    ((processCandidates sTest 1 0 [candNaN] stOne).1.map DetectedBlob.id) = [2] ∧
    (processCandidates sTest 1 0 [candNaN] stOne).1 ≠ [] := by
  have h : ((processCandidates sTest 1 0 [candNaN] stOne).1.map DetectedBlob.id) = [2] := by
    norm_num [processCandidates, matchPhase, List.foldl, stepCandidate,
      findClosest, closestScan, distSq, mapSet, mapGet, keysOf, prune,
      maxDistOf, MAX_TRACKING_DISTANCE_BASE, BLOB_TIMEOUT, sTest, stOne,
      candNaN, candAt, newBlobOf, updatedBlobOf, max_self]
  refine ⟨h, ?_⟩
  intro hnil
  rw [hnil] at h
  simp at h

/-- Claim C7 (amended): the tracker is total on malformed input — a candidate
with a non-finite x or y never matches any active blob (its distance is
non-finite and every comparison against the running minimum is false), but it
is not ignored: the step always spawns a fresh blob from it, which is appended
to the returned list. -/
theorem claim_C7 (c : Candidate) (h : c.x = none ∨ c.y = none) :
    (∀ (a : List ℕ) (mds : ℚ) (blobs : List (ℕ × DetectedBlob)),
      findClosest c a mds blobs = (none, mds)) ∧
    (∀ (s : TrackerSettings) (mds : ℚ) (now : ℤ) (acc : TrackAcc),
      stepCandidate s mds now acc c =
        { acc with
          nextId := acc.nextId + 1,
          active := mapSet acc.active acc.nextId (newBlobOf acc.nextId c now),
          tracked := acc.tracked ++ [newBlobOf acc.nextId c now] }) := by
  refine ⟨fun a mds blobs => findClosest_nonfinite h, ?_⟩
  intro s mds now acc
  apply stepCandidate_of_none
  rw [findClosest_nonfinite h]

/-- Witness for claim C7 at a concrete input. -/
theorem claim_C7_witness :
    (candNaN.x = none ∨ candNaN.y = none) ∧
    findClosest candNaN [] ((maxDistOf 1) ^ 2) stOne.activeBlobs =
      (none, (maxDistOf 1) ^ 2) :=
  ⟨Or.inl rfl, (claim_C7 candNaN (Or.inl rfl)).1 [] ((maxDistOf 1) ^ 2) stOne.activeBlobs⟩

/-! Claim C6: the visual motion smoother at drift = 1. -/

/-- Claim C6, counterexample: with drift = 1 the lerp factor is
0.8 - 1 * 0.7 = 0.1, so one update from display position 0 toward true
position 10 lands at 1, not at 10 — the display position does not equal the
true position after one update call. -/
theorem claim_C6_counterexample : ¬ (visualStep 0 10 1 = 10) := by
  norm_num [visualStep, lerpFactor]

/-- Claim C6 (corrected): the update rule is indeed
displayPos := displayPos + (truePos - displayPos) * lerpFactor with
lerpFactor = 0.8 - drift * 0.7, but drift = 1.0 yields the smallest factor
0.1 (slowest convergence, not maximum): one update moves the display position
one tenth of the way toward the true position, and it equals the true
position after one update iff the two were already equal. -/
theorem claim_C6 :
    lerpFactor 1 = 1 / 10 ∧
    (∀ v t : ℚ, visualStep v t 1 = v + (t - v) * (1 / 10)) ∧
    (∀ v t : ℚ, visualStep v t 1 = t ↔ v = t) := by
  refine ⟨by norm_num [lerpFactor], ?_, ?_⟩
  · intro v t
    norm_num [visualStep, lerpFactor]
  · intro v t
    simp only [visualStep, lerpFactor]
    constructor
    · intro h
      nlinarith [h]
    · intro h
      rw [h]
      ring

/-- Witness for claim C6 at a concrete input. -/
theorem claim_C6_witness : visualStep 0 10 1 = 0 + (10 - 0) * (1 / 10) :=
  claim_C6.2.1 0 10

/-! Lemmas about the export render loop. -/

lemma exportLoop_stop {d : ℚ} {c : ℕ → Bool} {fuel n : ℕ} {t : ℚ}
    (h : ¬ (t < d ∧ c n = false)) : exportLoop d c fuel n t = ([], n) := by
  cases fuel with
  | zero => rfl
  | succ k => simp [exportLoop, h]

lemma exportLoop_go {d : ℚ} {c : ℕ → Bool} {fuel n : ℕ} {t : ℚ}
    (h : t < d ∧ c n = false) :
    exportLoop d c (fuel + 1) n t =
      (reportProgress d t :: (exportLoop d c fuel (n + 1) (t + frameDuration)).1,
        (exportLoop d c fuel (n + 1) (t + frameDuration)).2) := by
  simp [exportLoop, h]

lemma exportLoop_length (d : ℚ) (c : ℕ → Bool) :
    ∀ (fuel n : ℕ) (t : ℚ),
      (exportLoop d c fuel n t).2 = n + (exportLoop d c fuel n t).1.length := by
  intro fuel
  induction fuel with
  | zero => intro n t; simp [exportLoop]
  | succ k ih =>
      intro n t
      by_cases hc : t < d ∧ c n = false
      · rw [exportLoop_go hc]
        simp only [List.length_cons]
        rw [ih (n + 1) (t + frameDuration)]
        omega
      · rw [exportLoop_stop hc]
        simp

lemma exportLoop_get (d : ℚ) (c : ℕ → Bool) :
    ∀ (fuel n : ℕ) (t : ℚ) (k : ℕ) (r : ℤ),
      (exportLoop d c fuel n t).1[k]? = some r →
      r = reportProgress d (t + k * frameDuration) := by
  intro fuel
  induction fuel with
  | zero => intro n t k r h; simp [exportLoop] at h
  | succ fl ih =>
      intro n t k r h
      by_cases hc : t < d ∧ c n = false
      · rw [exportLoop_go hc] at h
        cases k with
        | zero =>
            simp only [List.getElem?_cons_zero, Option.some.injEq] at h
            rw [← h]
            norm_num
        | succ k2 =>
            simp only [List.getElem?_cons_succ] at h
            rw [ih (n + 1) (t + frameDuration) k2 r h]
            congr 1
            push_cast
            ring
      · rw [exportLoop_stop hc] at h
        simp at h

lemma exportLoop_frames_le (d : ℚ) (c : ℕ → Bool) (m : ℕ) (hm : c m = true) :
    ∀ (fuel n : ℕ) (t : ℚ), n ≤ m → (exportLoop d c fuel n t).2 ≤ m := by
  intro fuel
  induction fuel with
  | zero => intro n t h; simpa [exportLoop] using h
  | succ k ih =>
      intro n t hnm
      by_cases hc : t < d ∧ c n = false
      · rw [exportLoop_go hc]
        apply ih
        rcases Nat.lt_or_ge n m with h | h
        · exact h
        · exfalso
          have heq : n = m := le_antisymm hnm h
          rw [heq, hm] at hc
          exact absurd hc.2 (by simp)
      · rw [exportLoop_stop hc]
        exact hnm

lemma reportProgress_mono {d t1 t2 : ℚ} (hd : 0 < d) (h : t1 ≤ t2) :
    reportProgress d t1 ≤ reportProgress d t2 := by
  apply min_le_min le_rfl
  apply Int.floor_le_floor
  have h2 : t1 / d ≤ t2 / d := by
    exact div_le_div_of_nonneg_right h hd.le
  linarith

lemma reportProgress_nonneg {d t : ℚ} (hd : 0 < d) (ht : 0 ≤ t) :
    0 ≤ reportProgress d t := by
  apply le_min
  · norm_num
  · apply Int.le_floor.mpr
    push_cast
    have h2 : 0 ≤ t / d := div_nonneg ht (le_of_lt hd)
    linarith

lemma reportProgress_le {d t : ℚ} : reportProgress d t ≤ 100 := min_le_left _ _

/-! Claim C9: progress reporting. -/

/-- Claim C9 (confirmed): the export loop reports progress exactly once per
logical frame (as many reports as frames processed); the value reported on
frame n is min(100, round((n * frameDuration / duration) * 100)), which lies
in [0, 100] — the source clamps only from above, and the value is never
negative because the elapsed time is nonnegative; and the reported sequence
never decreases.  (t / d * 100 equals the claim's 100 * t / d.) -/
theorem claim_C9 (d : ℚ) (cancel : ℕ → Bool) (hd : 0 < d) :
    (runRender d cancel).reports.length = (runRender d cancel).framesProcessed ∧
    (∀ (k : ℕ) (r : ℤ), (runRender d cancel).reports[k]? = some r →
      r = reportProgress d (k * frameDuration) ∧ 0 ≤ r ∧ r ≤ 100) ∧
    List.Pairwise (· ≤ ·) (runRender d cancel).reports := by
  have hfd : (0 : ℚ) ≤ frameDuration := by norm_num [frameDuration]
  refine ⟨?_, ?_, ?_⟩
  · show (exportLoop d cancel (exportFuel d) 0 0).1.length =
      (exportLoop d cancel (exportFuel d) 0 0).2
    rw [exportLoop_length d cancel (exportFuel d) 0 0]
    omega
  · intro k r h
    have hform := exportLoop_get d cancel (exportFuel d) 0 0 k r h
    rw [zero_add] at hform
    have htk : (0 : ℚ) ≤ (k : ℚ) * frameDuration := by positivity
    refine ⟨hform, ?_, ?_⟩
    · rw [hform]
      exact reportProgress_nonneg hd htk
    · rw [hform]
      exact reportProgress_le
  · rw [List.pairwise_iff_getElem]
    intro i j hi hj hij
    have hgi := exportLoop_get d cancel (exportFuel d) 0 0 i _
      (List.getElem?_eq_getElem hi)
    have hgj := exportLoop_get d cancel (exportFuel d) 0 0 j _
      (List.getElem?_eq_getElem hj)
    rw [hgi, hgj, zero_add, zero_add]
    apply reportProgress_mono hd
    have hcast : (i : ℚ) ≤ (j : ℚ) := by exact_mod_cast le_of_lt hij
    exact mul_le_mul_of_nonneg_right hcast hfd

/-- Witness for claim C9 at a concrete input. -/
theorem claim_C9_witness :
    (0 : ℚ) < 1 / 15 ∧
    List.Pairwise (· ≤ ·) (runRender (1 / 15) (fun _ => false)).reports :=
  ⟨by norm_num, (claim_C9 (1 / 15) (fun _ => false) (by norm_num)).2.2⟩

/-! Claim C8: cancellation. -/

/-- Cancellation signal observed from yield point 1 onwards. -/
def cancelFromOne : ℕ → Bool := fun n => decide (1 ≤ n)

/-- Claim C8, counterexample: with a one-second source the loop would run 30
frames, but the cancellation signal observed at the yield point after frame 0
stops it after one frame (the loop condition 1 * frameDuration < 1 still
held); the recorder is nevertheless stopped and its onstop handler invokes
onRenderComplete with the partial chunks, so the render-complete callback IS
invoked for a cancelled export. -/
theorem claim_C8_counterexample :
    (runRender 1 cancelFromOne).framesProcessed = 1 ∧
    cancelFromOne 1 = true ∧
    (1 : ℚ) * frameDuration < 1 ∧
    (runRender 1 cancelFromOne).completeInvoked = true := by
  have h1 : exportLoop 1 cancelFromOne (exportFuel 1) 0 0 =
      ([reportProgress 1 0], 1) := by
    have hk : exportFuel 1 = (⌈(1 : ℚ) / frameDuration⌉).toNat + 1 := rfl
    rw [hk]
    rw [exportLoop_go (by norm_num [cancelFromOne])]
    rw [exportLoop_stop (by simp [cancelFromOne])]
  refine ⟨?_, by simp [cancelFromOne], by norm_num [frameDuration], rfl⟩
  show (exportLoop 1 cancelFromOne (exportFuel 1) 0 0).2 = 1
  rw [h1]

/-- Claim C8 (corrected): when the cancellation signal is observed at a yield
point the loop does stop — no frame at or beyond the cancellation point is
processed — and the decoder is seeked back to position 0; but partial output
is not discarded: the recorder is stopped unconditionally after the loop and
its onstop handler invokes onRenderComplete with whatever chunks were
recorded, for cancelled and completed runs alike. -/
theorem claim_C8 (d : ℚ) (cancel : ℕ → Bool) :
    (runRender d cancel).completeInvoked = true ∧
    (runRender d cancel).finalSeek = 0 ∧
    (∀ n, cancel n = true → (runRender d cancel).framesProcessed ≤ n) := by
  refine ⟨rfl, rfl, ?_⟩
  intro n hn
  show (exportLoop d cancel (exportFuel d) 0 0).2 ≤ n
  exact exportLoop_frames_le d cancel n hn _ 0 0 (Nat.zero_le n)

/-- Witness for claim C8 at a concrete input. -/
theorem claim_C8_witness :
    cancelFromOne 1 = true ∧ (runRender 1 cancelFromOne).framesProcessed ≤ 1 :=
  ⟨by simp [cancelFromOne], (claim_C8 1 cancelFromOne).2.2 1 (by simp [cancelFromOne])⟩

end BlobTracker
